import Mathlib

/-!
Verification of the `repetitori` Telegram bot (`src/telegram_bot.py`).

The development shallowly embeds the two verifiable pieces of the program:

* the pure text normalizer `format_math_text` (lines 32–84 of the source),
  modelled over `List Char` with Python `str.replace` / `str.split` /
  `str.strip` / `str.startswith` semantics made explicit; and

* the per-user interaction controller (`handle_image`, `handle_question`,
  `cancel`), modelled as pure functions from an explicit per-user state map
  to a new state map together with the ordered list of externally visible
  events (replies, status edits, and the two outbound provider calls).
  The two network calls are passed in as oracle functions returning
  `Except Unit (List Char)`, so both success and failure runs can be
  examined.
-/

namespace Repetitori

/-- Characters stripped by Python's `str.strip()` (the ASCII whitespace
subset, which is all that can occur in the texts the claims are about). -/
def isPySpace (c : Char) : Bool :=
  c == ' ' || c == '\t' || c == '\n' || c == '\r' || c == '\x0b' || c == '\x0c'

/-- `startsWith s pat` is Python's `s.startswith(pat)` on character lists. -/
def startsWith : List Char → List Char → Bool
  | _, [] => true
  | [], _ :: _ => false
  | c :: cs, p :: ps => c == p && startsWith cs ps

/-- `headIs b s` tells whether `s` begins with the character `b`. -/
def headIs (b : Char) : List Char → Bool
  | [] => false
  | y :: _ => y == b

/-- `lastIs a s` tells whether `s` ends with the character `a`. -/
def lastIs (a : Char) : List Char → Bool
  | [] => false
  | [c] => c == a
  | _ :: c :: cs => lastIs a (c :: cs)

/-- `contains2 a b s`: the two-character string `ab` occurs in `s`. -/
def contains2 (a b : Char) : List Char → Bool
  | [] => false
  | c :: cs => (c == a && headIs b cs) || contains2 a b cs

/-- `containsSub pat s` is Python's `pat in s` (substring occurrence). -/
def containsSub (pat : List Char) : List Char → Bool
  | [] => pat.isEmpty
  | c :: cs => startsWith (c :: cs) pat || containsSub pat cs

/-- Fueled worker for `replaceAll`.  With fuel at least the length of the
input it implements Python `str.replace`: scan left to right, replace each
non-overlapping occurrence of `pat`, and continue after the inserted
replacement text (the replacement itself is never rescanned). -/
def replaceAllAux (pat rep : List Char) : Nat → List Char → List Char
  | _, [] => []
  | 0, s => s
  | fuel + 1, c :: cs =>
    if pat ≠ [] ∧ startsWith (c :: cs) pat = true then
      rep ++ replaceAllAux pat rep fuel (List.drop (pat.length - 1) cs)
    else
      c :: replaceAllAux pat rep fuel cs

/-- Python's `s.replace(pat, rep)` for a nonempty pattern (every pattern in
the program's substitution table is nonempty; for `pat = []` this is the
identity). -/
def replaceAll (pat rep s : List Char) : List Char :=
  replaceAllAux pat rep s.length s

/-- Python's `s.split('\n')` on character lists: `splitOnNl [] = [[]]`,
and a trailing newline yields a trailing empty line, as in Python. -/
def splitOnNl : List Char → List (List Char)
  | [] => [[]]
  | c :: cs =>
    if c = '\n' then [] :: splitOnNl cs
    else
      match splitOnNl cs with
      | [] => [[c]]
      | l :: ls => (c :: l) :: ls

/-- Python's `'\n'.join(ls)` on character lists. -/
def joinNl : List (List Char) → List Char
  | [] => []
  | [l] => l
  | l :: l' :: ls => l ++ '\n' :: joinNl (l' :: ls)

/-- Remove trailing `isPySpace` characters (the right half of `str.strip`). -/
def dropTrailingSpace : List Char → List Char
  | [] => []
  | c :: cs =>
    match dropTrailingSpace cs with
    | [] => if isPySpace c then [] else [c]
    | l :: ls => c :: l :: ls

/-- Python's `line.strip()` on character lists. -/
def stripL (l : List Char) : List Char :=
  dropTrailingSpace (l.dropWhile isPySpace)

/-- The ordered substitution table of `format_math_text`
(`src/telegram_bot.py`, lines 34–62).  Python dictionaries iterate in
insertion order, so the list order is the order the replacements run in. -/
def replacements : List (List Char × List Char) :=
  [("\\\\".data, "\\".data),
   ("\\overrightarrow".data, "→".data),
   ("\\[".data, "".data),
   ("\\]".data, "".data),
   ("\\vec".data, "→".data),
   ("_1".data, "₁".data),
   ("_2".data, "₂".data),
   ("_3".data, "₃".data),
   ("_4".data, "₄".data),
   ("\\\x7b".data, "\x7b".data),
   ("\\\x7d".data, "\x7d".data),
   ("\\cdot".data, "·".data),
   ("\\times".data, "×".data),
   ("\\rightarrow".data, "→".data),
   ("\\leftarrow".data, "←".data),
   ("\\Rightarrow".data, "⇒".data),
   ("\\Leftarrow".data, "⇐".data),
   ("\\approx".data, "≈".data),
   ("\\neq".data, "≠".data),
   ("\\leq".data, "≤".data),
   ("\\geq".data, "≥".data),
   ("\\sqrt".data, "√".data),
   ("\\infty".data, "∞".data),
   ("\\pi".data, "π".data),
   (" \\".data, " ".data),
   ("\\(".data, "(".data),
   ("\\)".data, ")".data)]

/-- First pass of `format_math_text`: run the substitution table in order. -/
def substPass (text : List Char) : List Char :=
  replacements.foldl (fun acc p => replaceAll p.1 p.2 acc) text

/-- The prefixes of the `startswith` tuple on line 79 of the source:
`('•', '-', '1.', '2.', …, '9.')`. -/
def bulletPrefixes : List (List Char) :=
  [['•'], ['-'], "1.".data, "2.".data, "3.".data, "4.".data, "5.".data,
   "6.".data, "7.".data, "8.".data, "9.".data]

/-- `line.startswith(('•', '-', '1.', …, '9.'))`. -/
def startsWithBullet (l : List Char) : Bool :=
  bulletPrefixes.any (fun p => startsWith l p)

/-- The triple-backtick fence used to wrap equation lines. -/
def fence : List Char := ['\x60', '\x60', '\x60']

/-- The fencing condition of line 79: the (stripped) line contains `=` and
does not start with a bullet or numbering marker. -/
def wrapCond (l : List Char) : Bool :=
  l.contains '=' && !(startsWithBullet l)

/-- The body of the per-line loop (lines 77–82): strip the line, then fence
it when `wrapCond` holds. -/
def procLine (line : List Char) : List Char :=
  let l := stripL line
  if wrapCond l then fence ++ l ++ fence else l

/-- The character-level passes of `format_math_text` before the per-line
loop: the ordered substitution table, then deletion of every remaining
backslash (line 69), then the `M1`/`M2` subscript rewrites (line 72). -/
def preprocess (text : List Char) : List Char :=
  replaceAll "M2".data "M₂".data
    (replaceAll "M1".data "M₁".data
      (replaceAll "\\".data [] (substPass text)))

/-- `format_math_text` (`src/telegram_bot.py`, lines 32–84) on character
lists. -/
def format_math_text (text : List Char) : List Char :=
  joinNl ((splitOnNl (preprocess text)).map procLine)

/-- The literal triggers of the substitution phases of `format_math_text`:
the substitution-table keys, the lone backslash removed by the second pass,
and the `M1`/`M2` rewrites of the third pass. -/
def tableKeys : List (List Char) :=
  replacements.map Prod.fst ++ ["\\".data, "M1".data, "M2".data]

/-- `escFree t`: `t` is free of the original escape sequences — none of the
substitution triggers of `format_math_text` occurs in `t`. -/
def escFree (t : List Char) : Bool :=
  tableKeys.all (fun p => !(containsSub p t))

/-- `noTrailSp l`: `l` does not end in a Python whitespace character. -/
def noTrailSp : List Char → Bool
  | [] => true
  | c :: cs => if cs.isEmpty then !(isPySpace c) else noTrailSp cs

/-! ### The interaction controller -/

/-- Image payloads are byte strings. -/
abbrev ImageData := List Nat

/-- The global `user_states` dictionary (line 30 of the source): at most
one pending image per user id; `none` models absence of the key. -/
abbrev StateMap := Nat → Option ImageData

/-- `user_states[user_id] = {"image_data": bytes}` (lines 250–252):
unconditional overwrite. -/
def putImage (st : StateMap) (uid : Nat) (img : ImageData) : StateMap :=
  fun u => if u = uid then some img else st u

/-- `del user_states[user_id]`. -/
def clearUser (st : StateMap) (uid : Nat) : StateMap :=
  fun u => if u = uid then none else st u

/-- The externally visible actions of a handler, in program order: texts
sent to the chat (`reply`), edits of the processing-status message
(`editStatus`), and the two outbound provider calls. -/
inductive BotEvent : Type where
  | reply : List Char → BotEvent
  | editStatus : List Char → BotEvent
  | callAnalyze : ImageData → List Char → BotEvent
  | callTranslate : List Char → BotEvent
deriving DecidableEq

/-- Acknowledgment sent by `handle_image` (lines 254–257). -/
def imageReceivedMsg : List Char :=
  "Image received! 🖼\nNow, please ask your question about this math problem.".data

/-- Guidance sent when a question arrives with no pending image
(lines 271–273). -/
def askImageFirstMsg : List Char :=
  "Please send an image of your math problem first before asking a question.".data

/-- Initial processing-status message (lines 278–281). -/
def processingMsg : List Char :=
  "Processing your request... ⏳\nThis might take a few seconds.".data

/-- Header of the English-solution reply (line 293). -/
def englishHeader : List Char := "🇬🇧 *English Solution:*\n\n".data

/-- Status-message edit before the translation call (lines 299–302). -/
def translatingStatusMsg : List Char :=
  "English solution complete ✅\nNow translating to Georgian... ⏳".data

/-- Header of the Georgian-solution reply (line 310). -/
def georgianHeader : List Char := "🇬🇪 *ქართული ამოხსნა:*\n\n".data

/-- Final status-message edit on success (line 319). -/
def doneStatusMsg : List Char := "✅ Solution complete!".data

/-- Error notice of the `except` block of `handle_question`
(lines 323–326); the same text is sent for every failure. -/
def genericErrorMsg : List Char :=
  "Sorry, there was an error processing your request. Please try again or send a new image.".data

/-- Confirmation sent by `cancel` when state existed (line 232). -/
def cancelledMsg : List Char :=
  "Operation cancelled. You can start again by sending a new image.".data

/-- Reply of `cancel` when there was nothing to cancel (line 234). -/
def noActiveMsg : List Char := "No active operation to cancel.".data

/-- `handle_image` (lines 236–257): store the downloaded bytes for the
user, overwriting any previous entry, and acknowledge. -/
def handle_image (st : StateMap) (uid : Nat) (img : ImageData) :
    StateMap × List BotEvent :=
  (putImage st uid img, [BotEvent.reply imageReceivedMsg])

/-- `cancel` (lines 227–234): delete the user's entry and confirm if it
exists, otherwise report that there is nothing to cancel. -/
def cancel (st : StateMap) (uid : Nat) : StateMap × List BotEvent :=
  match st uid with
  | some _ => (clearUser st uid, [BotEvent.reply cancelledMsg])
  | none => (st, [BotEvent.reply noActiveMsg])

/-- `handle_question` (lines 266–328).  The two provider calls are passed
in as oracles returning `Except Unit (List Char)`; `Except.error` models an
exception raised by the call, caught by the handler's `except` block, which
replies with the generic error notice and deletes the user's entry. -/
def handle_question (st : StateMap) (uid : Nat) (question : List Char)
    (analyze : ImageData → List Char → Except Unit (List Char))
    (translate : List Char → Except Unit (List Char)) :
    StateMap × List BotEvent :=
  match st uid with
  | none => (st, [BotEvent.reply askImageFirstMsg])
  | some img =>
    match analyze img question with
    | Except.error _ =>
        (clearUser st uid,
         [BotEvent.reply processingMsg,
          BotEvent.callAnalyze img question,
          BotEvent.reply genericErrorMsg])
    | Except.ok english =>
      match translate english with
      | Except.error _ =>
          (clearUser st uid,
           [BotEvent.reply processingMsg,
            BotEvent.callAnalyze img question,
            BotEvent.reply (englishHeader ++ format_math_text english),
            BotEvent.editStatus translatingStatusMsg,
            BotEvent.callTranslate english,
            BotEvent.reply genericErrorMsg])
      | Except.ok georgian =>
          (clearUser st uid,
           [BotEvent.reply processingMsg,
            BotEvent.callAnalyze img question,
            BotEvent.reply (englishHeader ++ format_math_text english),
            BotEvent.editStatus translatingStatusMsg,
            BotEvent.callTranslate english,
            BotEvent.reply (georgianHeader ++ format_math_text georgian),
            BotEvent.editStatus doneStatusMsg])

/-- The arguments of the vision-reasoning calls in an event trace. -/
def analyzeCalls : List BotEvent → List (ImageData × List Char)
  | [] => []
  | BotEvent.callAnalyze i q :: es => (i, q) :: analyzeCalls es
  | _ :: es => analyzeCalls es

/-- The arguments of the translation calls in an event trace. -/
def translateCalls : List BotEvent → List (List Char)
  | [] => []
  | BotEvent.callTranslate t :: es => t :: translateCalls es
  | _ :: es => translateCalls es

/-! ### Basic lemmas about the character-list primitives -/

theorem startsWith_single (b : Char) : ∀ s : List Char, startsWith s [b] = headIs b s
  | [] => rfl
  | c :: cs => by simp [startsWith, headIs]

theorem containsSub_pair (a b : Char) : ∀ s, containsSub [a, b] s = contains2 a b s
  | [] => rfl
  | c :: cs => by
      simp [containsSub, contains2, startsWith, startsWith_single,
        containsSub_pair a b cs]

theorem contains2_cons_of (a b c : Char) (cs : List Char)
    (h : contains2 a b cs = true) : contains2 a b (c :: cs) = true := by
  simp [contains2, h]

theorem contains2_append_right (a b : Char) (xs ys : List Char)
    (h : contains2 a b ys = true) : contains2 a b (xs ++ ys) = true := by
  induction xs with
  | nil => simpa
  | cons x xs ih => simp [contains2, ih]

theorem contains2_append_left (a b : Char) (xs ys : List Char)
    (h : contains2 a b xs = true) : contains2 a b (xs ++ ys) = true := by
  induction xs with
  | nil => simp [contains2] at h
  | cons x xs ih =>
    simp only [contains2, Bool.or_eq_true] at h ⊢
    rcases h with h | h
    · left
      rw [Bool.and_eq_true] at h
      obtain ⟨h1, h2⟩ := h
      rw [Bool.and_eq_true]
      refine ⟨h1, ?_⟩
      cases xs with
      | nil => simp [headIs] at h2
      | cons z zs => simpa [headIs] using h2
    · right; exact ih h

theorem contains2_of_drop (a b : Char) (n : Nat) (s : List Char)
    (h : contains2 a b (List.drop n s) = true) : contains2 a b s = true := by
  have := contains2_append_right a b (List.take n s) (List.drop n s) h
  rwa [List.take_append_drop] at this

theorem contains2_append_false (a b : Char) (ys : List Char) :
    ∀ xs, contains2 a b xs = false → contains2 a b ys = false →
      (lastIs a xs = false ∨ headIs b ys = false) →
      contains2 a b (xs ++ ys) = false
  | [], _, hy, _ => by simpa
  | [x], _, hy, hside => by
      simp only [List.cons_append, List.nil_append, contains2,
        Bool.or_eq_false_iff]
      refine ⟨?_, hy⟩
      rcases hside with hs | hs
      · simp only [lastIs] at hs
        simp [hs]
      · simp [hs]
  | x :: z :: zs, hx, hy, hside => by
      have hx2 : contains2 a b (z :: zs) = false := by
        simp only [contains2, Bool.or_eq_false_iff] at hx ⊢
        exact hx.2
      have hx1 : (x == a && headIs b (z :: zs)) = false := by
        simp only [contains2, Bool.or_eq_false_iff] at hx
        exact hx.1
      have hs' : lastIs a (z :: zs) = false ∨ headIs b ys = false := by
        rcases hside with hs | hs
        · left; simpa [lastIs] using hs
        · right; exact hs
      have ih := contains2_append_false a b ys (z :: zs) hx2 hy hs'
      simp only [List.cons_append, contains2, Bool.or_eq_false_iff] at ih ⊢
      refine ⟨?_, ih⟩
      simpa [headIs] using hx1

/-! ### Lemmas about `replaceAll` -/

theorem replaceAllAux_not_contains (pat rep : List Char) :
    ∀ fuel s, containsSub pat s = false → replaceAllAux pat rep fuel s = s := by
  intro fuel
  induction fuel with
  | zero => intro s _; cases s <;> rfl
  | succ fuel ih =>
    intro s hs
    cases s with
    | nil => rfl
    | cons c cs =>
      have h1 : startsWith (c :: cs) pat = false := by
        simp only [containsSub, Bool.or_eq_false_iff] at hs
        exact hs.1
      have h2 : containsSub pat cs = false := by
        simp only [containsSub, Bool.or_eq_false_iff] at hs
        exact hs.2
      simp only [replaceAllAux]
      rw [if_neg]
      · rw [ih cs h2]
      · intro hcon
        simp [hcon.2] at h1

/-- Python `s.replace(pat, rep)` leaves `s` unchanged when `pat` does not
occur in `s`. -/
theorem replaceAll_not_contains (pat rep s : List Char)
    (hs : containsSub pat s = false) : replaceAll pat rep s = s :=
  replaceAllAux_not_contains pat rep s.length s hs

theorem mem_replaceAllAux (pat rep : List Char) (x : Char) :
    ∀ fuel s, x ∈ replaceAllAux pat rep fuel s → x ∈ rep ∨ x ∈ s := by
  intro fuel
  induction fuel with
  | zero =>
    intro s hx
    cases s with
    | nil => simp [replaceAllAux] at hx
    | cons c cs => exact Or.inr hx
  | succ fuel ih =>
    intro s hx
    cases s with
    | nil => simp [replaceAllAux] at hx
    | cons c cs =>
      simp only [replaceAllAux] at hx
      by_cases h : pat ≠ [] ∧ startsWith (c :: cs) pat = true
      · rw [if_pos h] at hx
        rcases List.mem_append.mp hx with h1 | h1
        · exact Or.inl h1
        · rcases ih _ h1 with h2 | h2
          · exact Or.inl h2
          · exact Or.inr (List.mem_cons_of_mem c (List.mem_of_mem_drop h2))
      · rw [if_neg h] at hx
        rcases List.mem_cons.mp hx with h1 | h1
        · exact Or.inr (h1 ▸ List.mem_cons_self c cs)
        · rcases ih _ h1 with h2 | h2
          · exact Or.inl h2
          · exact Or.inr (List.mem_cons_of_mem c h2)

theorem mem_replaceAll (pat rep s : List Char) (x : Char)
    (hx : x ∈ replaceAll pat rep s) : x ∈ rep ∨ x ∈ s :=
  mem_replaceAllAux pat rep x s.length s hx

theorem headIs_replaceAllAux (x p1 r1 : Char) (ps rs : List Char)
    (hr : (r1 == x) = false) :
    ∀ fuel s, headIs x s = false →
      headIs x (replaceAllAux (p1 :: ps) (r1 :: rs) fuel s) = false := by
  intro fuel s hs
  cases fuel with
  | zero =>
    cases s with
    | nil => simp [replaceAllAux, headIs]
    | cons c cs => exact hs
  | succ fuel =>
    cases s with
    | nil => simp [replaceAllAux, headIs]
    | cons c cs =>
      simp only [replaceAllAux]
      by_cases h : (p1 :: ps) ≠ [] ∧ startsWith (c :: cs) (p1 :: ps) = true
      · rw [if_pos h]
        simpa [headIs] using hr
      · rw [if_neg h]
        simpa [headIs] using hs

/-- After replacing the two-character pattern `Md` by `Me` (with `e`
distinct from `d`, `M` and not matching the searched second character),
the pattern `Md` no longer occurs. -/
theorem contains2_replaceAll_self (d e : Char)
    (hed : (e == d) = false) (heM : (e == 'M') = false)
    (hMd : ('M' == d) = false) :
    ∀ fuel s, s.length ≤ fuel →
      contains2 'M' d (replaceAllAux ['M', d] ['M', e] fuel s) = false := by
  intro fuel
  induction fuel with
  | zero =>
    intro s hs
    have h0 : s = [] := List.length_eq_zero.mp (Nat.le_zero.mp hs)
    subst h0
    simp [replaceAllAux, contains2]
  | succ fuel ih =>
    intro s hs
    cases s with
    | nil => simp [replaceAllAux, contains2]
    | cons c cs =>
      simp only [replaceAllAux]
      by_cases h : (['M', d] : List Char) ≠ [] ∧
          startsWith (c :: cs) ['M', d] = true
      · rw [if_pos h]
        have hlen : (List.drop (['M', d].length - 1) cs).length ≤ fuel := by
          simp only [List.length_cons] at hs
          simp only [List.length_drop]
          omega
        have hX := ih _ hlen
        have hX' : contains2 'M' d (replaceAllAux ['M', d] ['M', e] fuel cs.tail) = false := by
          simpa using hX
        simp only [List.cons_append, List.nil_append, contains2, headIs,
          Bool.or_eq_false_iff]
        simp [hed, heM, hX']
      · rw [if_neg h]
        have hY := ih cs (by simp only [List.length_cons] at hs; omega)
        simp only [contains2, Bool.or_eq_false_iff]
        refine ⟨?_, hY⟩
        by_cases hc : (c == 'M') = true
        · have hstart : startsWith (c :: cs) ['M', d] = false := by
            cases hsw : startsWith (c :: cs) ['M', d] with
            | true => exact absurd ⟨by simp, hsw⟩ h
            | false => rfl
          have hcss : headIs d cs = false := by
            rw [startsWith, hc, Bool.true_and, startsWith_single] at hstart
            exact hstart
          have hhd := headIs_replaceAllAux d 'M' 'M' [d] [e] hMd fuel cs hcss
          simp [hc, hhd]
        · have hc' : (c == 'M') = false := by
            revert hc; cases (c == 'M') <;> simp
          simp [hc']

/-- Replacing `Md` by `Me` cannot create a new occurrence of a pattern
`Mx` (for `x` distinct from what `e` and `M` match). -/
theorem contains2_M_replaceAllAux (x d e : Char)
    (hex : (e == x) = false) (heM : (e == 'M') = false)
    (hMx : ('M' == x) = false) :
    ∀ fuel s, s.length ≤ fuel → contains2 'M' x s = false →
      contains2 'M' x (replaceAllAux ['M', d] ['M', e] fuel s) = false := by
  intro fuel
  induction fuel with
  | zero =>
    intro s hs _
    have h0 : s = [] := List.length_eq_zero.mp (Nat.le_zero.mp hs)
    subst h0
    simp [replaceAllAux, contains2]
  | succ fuel ih =>
    intro s hs hin
    cases s with
    | nil => simp [replaceAllAux, contains2]
    | cons c cs =>
      have hin1 : (c == 'M' && headIs x cs) = false := by
        simp only [contains2, Bool.or_eq_false_iff] at hin
        exact hin.1
      have hin2 : contains2 'M' x cs = false := by
        simp only [contains2, Bool.or_eq_false_iff] at hin
        exact hin.2
      simp only [replaceAllAux]
      by_cases h : (['M', d] : List Char) ≠ [] ∧
          startsWith (c :: cs) ['M', d] = true
      · rw [if_pos h]
        have hlen : (List.drop (['M', d].length - 1) cs).length ≤ fuel := by
          simp only [List.length_cons] at hs
          simp only [List.length_drop]
          omega
        have hdrop : contains2 'M' x (List.drop (['M', d].length - 1) cs) = false := by
          cases hval : contains2 'M' x (List.drop (['M', d].length - 1) cs) with
          | false => rfl
          | true => rw [contains2_of_drop 'M' x _ cs hval] at hin2; exact hin2
        have hX := ih _ hlen hdrop
        have hX' : contains2 'M' x (replaceAllAux ['M', d] ['M', e] fuel cs.tail) = false := by
          simpa using hX
        simp only [List.cons_append, List.nil_append, contains2, headIs,
          Bool.or_eq_false_iff]
        simp [hex, heM, hX']
      · rw [if_neg h]
        have hY := ih cs (by simp only [List.length_cons] at hs; omega) hin2
        simp only [contains2, Bool.or_eq_false_iff]
        refine ⟨?_, hY⟩
        by_cases hc : (c == 'M') = true
        · have hcss : headIs x cs = false := by
            rw [hc, Bool.true_and] at hin1
            exact hin1
          have hhd := headIs_replaceAllAux x 'M' 'M' [d] [e] hMx fuel cs hcss
          simp [hc, hhd]
        · have hc' : (c == 'M') = false := by
            revert hc; cases (c == 'M') <;> simp
          simp [hc']

/-! ### Lemmas about splitting, joining and stripping lines -/

theorem splitOnNl_ne_nil : ∀ t : List Char, splitOnNl t ≠ [] := by
  intro t
  cases t with
  | nil => simp [splitOnNl]
  | cons c cs =>
    simp only [splitOnNl]
    by_cases h : c = '\n'
    · simp [h]
    · rw [if_neg h]
      cases hs : splitOnNl cs <;> simp

theorem joinNl_splitOnNl : ∀ t : List Char, joinNl (splitOnNl t) = t := by
  intro t
  induction t with
  | nil => rfl
  | cons c cs ih =>
    simp only [splitOnNl]
    by_cases h : c = '\n'
    · rw [if_pos h]
      cases hs : splitOnNl cs with
      | nil => exact absurd hs (splitOnNl_ne_nil cs)
      | cons l ls =>
        rw [hs] at ih
        simp [joinNl, h, ih]
    · rw [if_neg h]
      cases hs : splitOnNl cs with
      | nil => exact absurd hs (splitOnNl_ne_nil cs)
      | cons l ls =>
        rw [hs] at ih
        cases ls with
        | nil =>
          simp only [joinNl] at ih ⊢
          simp [ih]
        | cons l' ls' =>
          simp only [joinNl] at ih ⊢
          simp [ih]

theorem noNl_of_mem_splitOnNl : ∀ t l, l ∈ splitOnNl t → '\n' ∉ l := by
  intro t
  induction t with
  | nil =>
    intro l hl
    simp [splitOnNl] at hl
    simp [hl]
  | cons c cs ih =>
    intro l hl
    simp only [splitOnNl] at hl
    by_cases h : c = '\n'
    · rw [if_pos h] at hl
      rcases List.mem_cons.mp hl with h1 | h1
      · simp [h1]
      · exact ih l h1
    · rw [if_neg h] at hl
      cases hs : splitOnNl cs with
      | nil => exact absurd hs (splitOnNl_ne_nil cs)
      | cons l0 ls =>
        rw [hs] at hl
        rcases List.mem_cons.mp hl with h1 | h1
        · subst h1
          intro hmem
          rcases List.mem_cons.mp hmem with h2 | h2
          · exact h h2.symm
          · exact ih l0 (hs ▸ List.mem_cons_self l0 ls) h2
        · exact ih l (hs ▸ List.mem_cons_of_mem l0 h1)

theorem splitOnNl_of_noNl : ∀ l : List Char, '\n' ∉ l → splitOnNl l = [l] := by
  intro l
  induction l with
  | nil => intro _; rfl
  | cons c cs ih =>
    intro h
    have hc : ¬ c = '\n' := fun hc => h (hc ▸ List.mem_cons_self c cs)
    have hcs : '\n' ∉ cs := fun hm => h (List.mem_cons_of_mem c hm)
    simp only [splitOnNl, if_neg hc, ih hcs]

theorem splitOnNl_append_nl : ∀ l x : List Char, '\n' ∉ l →
    splitOnNl (l ++ '\n' :: x) = l :: splitOnNl x := by
  intro l
  induction l with
  | nil => intro x _; simp [splitOnNl]
  | cons c cs ih =>
    intro x h
    have hc : ¬ c = '\n' := fun hc => h (hc ▸ List.mem_cons_self c cs)
    have hcs : '\n' ∉ cs := fun hm => h (List.mem_cons_of_mem c hm)
    rw [List.cons_append]
    simp only [splitOnNl, if_neg hc]
    rw [ih x hcs]

theorem splitOnNl_joinNl : ∀ ls : List (List Char), ls ≠ [] →
    (∀ l ∈ ls, '\n' ∉ l) → splitOnNl (joinNl ls) = ls := by
  intro ls
  induction ls with
  | nil => intro h _; exact absurd rfl h
  | cons l ls ih =>
    intro _ hnl
    cases ls with
    | nil =>
      simp only [joinNl]
      exact splitOnNl_of_noNl l (hnl l (List.mem_cons_self l []))
    | cons l' ls' =>
      simp only [joinNl]
      rw [splitOnNl_append_nl l _ (hnl l (List.mem_cons_self l _))]
      rw [ih (by simp) (fun m hm => hnl m (List.mem_cons_of_mem l hm))]

theorem mem_joinNl_of_mem : ∀ (ls : List (List Char)) (l : List Char) (x : Char),
    l ∈ ls → x ∈ l → x ∈ joinNl ls := by
  intro ls
  induction ls with
  | nil => intro l x hl _; simp at hl
  | cons l0 ls ih =>
    intro l x hl hx
    rcases List.mem_cons.mp hl with h1 | h1
    · subst h1
      cases ls with
      | nil => exact hx
      | cons l' ls' =>
        simp only [joinNl]
        exact List.mem_append.mpr (Or.inl hx)
    · cases ls with
      | nil => simp at h1
      | cons l' ls' =>
        simp only [joinNl]
        exact List.mem_append.mpr (Or.inr (List.mem_cons_of_mem _ (ih l x h1 hx)))

theorem mem_of_mem_joinNl : ∀ (ls : List (List Char)) (x : Char),
    x ∈ joinNl ls → x = '\n' ∨ ∃ l ∈ ls, x ∈ l := by
  intro ls
  induction ls with
  | nil => intro x hx; simp [joinNl] at hx
  | cons l0 ls ih =>
    intro x hx
    cases ls with
    | nil => exact Or.inr ⟨l0, List.mem_cons_self l0 [], hx⟩
    | cons l' ls' =>
      simp only [joinNl] at hx
      rcases List.mem_append.mp hx with h1 | h1
      · exact Or.inr ⟨l0, List.mem_cons_self l0 _, h1⟩
      · rcases List.mem_cons.mp h1 with h2 | h2
        · exact Or.inl h2
        · rcases ih x h2 with h3 | ⟨l, hl, hxl⟩
          · exact Or.inl h3
          · exact Or.inr ⟨l, List.mem_cons_of_mem l0 hl, hxl⟩

theorem dropTrailingSpace_append_eq :
    ∀ l : List Char, ∃ t, l = dropTrailingSpace l ++ t := by
  intro l
  induction l with
  | nil => exact ⟨[], rfl⟩
  | cons c cs ih =>
    obtain ⟨t, ht⟩ := ih
    cases hd : dropTrailingSpace cs with
    | nil =>
      by_cases hc : isPySpace c
      · exact ⟨c :: cs, by simp [dropTrailingSpace, hd, hc]⟩
      · refine ⟨cs, ?_⟩
        simp [dropTrailingSpace, hd, hc]
    | cons x xs =>
      refine ⟨t, ?_⟩
      rw [hd] at ht
      simp only [dropTrailingSpace, hd]
      simpa using ht

theorem mem_stripL (x : Char) (l : List Char) (hx : x ∈ stripL l) : x ∈ l := by
  unfold stripL at hx
  obtain ⟨t, ht⟩ := dropTrailingSpace_append_eq (l.dropWhile isPySpace)
  have h1 : x ∈ l.dropWhile isPySpace := by
    rw [ht]
    exact List.mem_append.mpr (Or.inl hx)
  have h2 := List.takeWhile_append_dropWhile (p := isPySpace) (l := l)
  rw [← h2]
  exact List.mem_append.mpr (Or.inr h1)

theorem contains2_stripL (a b : Char) (l : List Char)
    (h : contains2 a b l = false) : contains2 a b (stripL l) = false := by
  cases hval : contains2 a b (stripL l) with
  | false => rfl
  | true =>
    exfalso
    unfold stripL at hval
    obtain ⟨t, ht⟩ := dropTrailingSpace_append_eq (l.dropWhile isPySpace)
    have h1 : contains2 a b (l.dropWhile isPySpace) = true := by
      rw [ht]
      exact contains2_append_left a b _ t hval
    have h2 : contains2 a b l = true := by
      rw [← List.takeWhile_append_dropWhile (p := isPySpace) (l := l)]
      exact contains2_append_right a b _ _ h1
    rw [h2] at h
    cases h

theorem headIs_of_splitOnNl_head (b : Char) :
    ∀ (cs l0 : List Char) (ls : List (List Char)), splitOnNl cs = l0 :: ls →
      headIs b l0 = true → headIs b cs = true := by
  intro cs l0 ls hs hb
  cases cs with
  | nil =>
    simp only [splitOnNl] at hs
    cases hs
    cases hb
  | cons d ds =>
    simp only [splitOnNl] at hs
    by_cases hd : d = '\n'
    · rw [if_pos hd] at hs
      cases hs
      cases hb
    · rw [if_neg hd] at hs
      cases hd2 : splitOnNl ds with
      | nil => exact absurd hd2 (splitOnNl_ne_nil ds)
      | cons m ms =>
        rw [hd2] at hs
        cases hs
        simpa [headIs] using hb

theorem contains2_of_mem_splitOnNl (a b : Char) :
    ∀ (t : List Char), contains2 a b t = false →
      ∀ l ∈ splitOnNl t, contains2 a b l = false := by
  intro t
  induction t with
  | nil =>
    intro _ l hl
    simp [splitOnNl] at hl
    simp [hl, contains2]
  | cons c cs ih =>
    intro h l hl
    have h1 : (c == a && headIs b cs) = false := by
      simp only [contains2, Bool.or_eq_false_iff] at h
      exact h.1
    have h2 : contains2 a b cs = false := by
      simp only [contains2, Bool.or_eq_false_iff] at h
      exact h.2
    simp only [splitOnNl] at hl
    by_cases hc : c = '\n'
    · rw [if_pos hc] at hl
      rcases List.mem_cons.mp hl with hm | hm
      · simp [hm, contains2]
      · exact ih h2 l hm
    · rw [if_neg hc] at hl
      cases hs : splitOnNl cs with
      | nil => exact absurd hs (splitOnNl_ne_nil cs)
      | cons l0 ls =>
        rw [hs] at hl
        rcases List.mem_cons.mp hl with hm | hm
        · subst hm
          have hl0 : contains2 a b l0 = false :=
            ih h2 l0 (hs ▸ List.mem_cons_self l0 ls)
          simp only [contains2, Bool.or_eq_false_iff]
          refine ⟨?_, hl0⟩
          cases hhead : headIs b l0 with
          | false => simp [hhead]
          | true =>
            have := headIs_of_splitOnNl_head b cs l0 ls hs hhead
            rw [this] at h1
            simp [h1]
        · exact ih h2 l (hs ▸ List.mem_cons_of_mem l0 hm)

theorem contains2_joinNl (a b : Char)
    (ha : (('\n' : Char) == a) = false) (hb : (('\n' : Char) == b) = false) :
    ∀ ls : List (List Char), (∀ l ∈ ls, contains2 a b l = false) →
      contains2 a b (joinNl ls) = false := by
  intro ls
  induction ls with
  | nil => intro _; rfl
  | cons l ls ih =>
    intro h
    cases ls with
    | nil => exact h l (List.mem_cons_self l [])
    | cons l' ls' =>
      simp only [joinNl]
      have hrest : contains2 a b (joinNl (l' :: ls')) = false :=
        ih (fun m hm => h m (List.mem_cons_of_mem l hm))
      refine contains2_append_false a b _ l (h l (List.mem_cons_self l _)) ?_ ?_
      · simp only [contains2, Bool.or_eq_false_iff]
        constructor
        · simp [ha]
        · exact hrest
      · right
        simp [headIs, hb]

/-! ### Substring occurrence: monotonicity and decomposition -/

theorem startsWith_nil_pat : ∀ s : List Char, startsWith s [] = true
  | [] => rfl
  | _ :: _ => rfl

theorem containsSub_nil_pat : ∀ s : List Char, containsSub [] s = true
  | [] => rfl
  | c :: cs => by simp [containsSub, startsWith_nil_pat]

theorem containsSub_cons_of (pat : List Char) (c : Char) (cs : List Char)
    (h : containsSub pat cs = true) : containsSub pat (c :: cs) = true := by
  simp [containsSub, h]

theorem startsWith_append_mono : ∀ (xs pat ys : List Char),
    startsWith xs pat = true → startsWith (xs ++ ys) pat = true := by
  intro xs
  induction xs with
  | nil =>
    intro pat ys h
    cases pat with
    | nil => exact startsWith_nil_pat ys
    | cons p ps => exact absurd h (by simp [startsWith])
  | cons x xs ih =>
    intro pat ys h
    cases pat with
    | nil => exact startsWith_nil_pat _
    | cons p ps =>
      simp only [startsWith, Bool.and_eq_true] at h
      simp only [List.cons_append, startsWith, Bool.and_eq_true]
      exact ⟨h.1, ih ps ys h.2⟩

theorem containsSub_append_left_mono (pat : List Char) :
    ∀ xs ys : List Char, containsSub pat xs = true →
      containsSub pat (xs ++ ys) = true := by
  intro xs
  induction xs with
  | nil =>
    intro ys h
    cases pat with
    | nil => exact containsSub_nil_pat ys
    | cons p ps => simp [containsSub] at h
  | cons x xs ih =>
    intro ys h
    simp only [containsSub, Bool.or_eq_true] at h
    simp only [List.cons_append, containsSub, Bool.or_eq_true]
    rcases h with h | h
    · exact Or.inl (by simpa using startsWith_append_mono (x :: xs) pat ys h)
    · exact Or.inr (ih ys h)

theorem containsSub_append_right_mono (pat : List Char) :
    ∀ xs ys : List Char, containsSub pat ys = true →
      containsSub pat (xs ++ ys) = true := by
  intro xs
  induction xs with
  | nil => intro ys h; simpa
  | cons x xs ih =>
    intro ys h
    simp only [List.cons_append, containsSub, Bool.or_eq_true]
    exact Or.inr (ih ys h)

theorem startsWith_append_decomp : ∀ (xs pat ys : List Char),
    startsWith (xs ++ ys) pat = true →
    (pat.length ≤ xs.length ∧ startsWith xs pat = true) ∨
    (xs.length < pat.length ∧ startsWith pat xs = true ∧
      startsWith ys (pat.drop xs.length) = true) := by
  intro xs
  induction xs with
  | nil =>
    intro pat ys h
    cases pat with
    | nil => exact Or.inl ⟨Nat.le_refl 0, rfl⟩
    | cons p ps =>
      refine Or.inr ⟨Nat.zero_lt_succ _, startsWith_nil_pat _, ?_⟩
      simpa using h
  | cons x xs ih =>
    intro pat ys h
    cases pat with
    | nil => exact Or.inl ⟨Nat.zero_le _, startsWith_nil_pat _⟩
    | cons p ps =>
      simp only [List.cons_append, startsWith, Bool.and_eq_true] at h
      rcases ih ps ys h.2 with ⟨h1, h2⟩ | ⟨h1, h2, h3⟩
      · left
        refine ⟨?_, ?_⟩
        · simp only [List.length_cons]
          omega
        · simp only [startsWith, Bool.and_eq_true]
          exact ⟨h.1, h2⟩
      · right
        refine ⟨?_, ?_, ?_⟩
        · simp only [List.length_cons]
          omega
        · simp only [startsWith, Bool.and_eq_true]
          exact ⟨beq_iff_eq.mpr (beq_iff_eq.mp h.1).symm, h2⟩
        · simpa [List.length_cons, List.drop_succ_cons] using h3

theorem containsSub_append_cases (pat ys : List Char) : ∀ xs : List Char,
    containsSub pat (xs ++ ys) = true →
    containsSub pat xs = true ∨ containsSub pat ys = true ∨
      ∃ x1 x2, pat = x1 ++ x2 ∧ x1 ≠ [] ∧ x2 ≠ [] ∧ startsWith ys x2 = true := by
  intro xs
  induction xs with
  | nil => intro h; exact Or.inr (Or.inl (by simpa using h))
  | cons x xs ih =>
    intro h
    simp only [List.cons_append, containsSub, Bool.or_eq_true] at h
    rcases h with h | h
    · have h' : startsWith ((x :: xs) ++ ys) pat = true := by simpa using h
      rcases startsWith_append_decomp (x :: xs) pat ys h' with ⟨_, h2⟩ | ⟨h1, _, h3⟩
      · exact Or.inl (by simp [containsSub, h2])
      · refine Or.inr (Or.inr ⟨pat.take (x :: xs).length, pat.drop (x :: xs).length,
          (List.take_append_drop _ _).symm, ?_, ?_, h3⟩)
        · intro hemp
          have hlen := congrArg List.length hemp
          simp only [List.length_take, List.length_nil, List.length_cons] at hlen
          simp only [List.length_cons] at h1
          omega
        · intro hemp
          have hlen := congrArg List.length hemp
          simp only [List.length_drop, List.length_nil, List.length_cons] at hlen
          simp only [List.length_cons] at h1
          omega
    · rcases ih h with h1 | h1
      · exact Or.inl (containsSub_cons_of pat x xs h1)
      · exact Or.inr h1

theorem containsSub_joinNl_cases (pat : List Char) (hne : pat ≠ [])
    (hnl : ('\n' : Char) ∉ pat) :
    ∀ ls : List (List Char), containsSub pat (joinNl ls) = true →
      ∃ l ∈ ls, containsSub pat l = true := by
  intro ls
  induction ls with
  | nil =>
    intro h
    cases pat with
    | nil => exact absurd rfl hne
    | cons p ps => simp [joinNl, containsSub] at h
  | cons l ls ih =>
    intro h
    cases ls with
    | nil => exact ⟨l, List.mem_cons_self l [], by simpa [joinNl] using h⟩
    | cons l' ls' =>
      simp only [joinNl] at h
      rcases containsSub_append_cases pat ('\n' :: joinNl (l' :: ls')) l h
        with h1 | h1 | h1
      · exact ⟨l, List.mem_cons_self l _, h1⟩
      · simp only [containsSub, Bool.or_eq_true] at h1
        rcases h1 with h2 | h2
        · cases pat with
          | nil => exact absurd rfl hne
          | cons p ps =>
            simp only [startsWith, Bool.and_eq_true] at h2
            have hp : ('\n' : Char) = p := beq_iff_eq.mp h2.1
            exact absurd (by rw [hp]; exact List.mem_cons_self p ps) hnl
        · rcases ih h2 with ⟨m, hm, hcm⟩
          exact ⟨m, List.mem_cons_of_mem l hm, hcm⟩
      · obtain ⟨x1, x2, hpat, _, hx2, hsw⟩ := h1
        cases x2 with
        | nil => exact absurd rfl hx2
        | cons y ys' =>
          simp only [startsWith, Bool.and_eq_true] at hsw
          have hy : ('\n' : Char) = y := beq_iff_eq.mp hsw.1
          have hmem : ('\n' : Char) ∈ pat := by
            rw [hpat]
            refine List.mem_append.mpr (Or.inr ?_)
            rw [hy]
            exact List.mem_cons_self y ys'
          exact absurd hmem hnl

theorem containsSub_stripL_mono (pat l : List Char)
    (h : containsSub pat (stripL l) = true) : containsSub pat l = true := by
  unfold stripL at h
  obtain ⟨t, ht⟩ := dropTrailingSpace_append_eq (l.dropWhile isPySpace)
  have h1 : containsSub pat (l.dropWhile isPySpace) = true := by
    rw [ht]
    exact containsSub_append_left_mono pat _ t h
  rw [← List.takeWhile_append_dropWhile (p := isPySpace) (l := l)]
  exact containsSub_append_right_mono pat _ _ h1

theorem containsSub_joinNl_of_mem (pat : List Char) :
    ∀ (ls : List (List Char)) (l : List Char), l ∈ ls →
      containsSub pat l = true → containsSub pat (joinNl ls) = true := by
  intro ls
  induction ls with
  | nil => intro l hl _; simp at hl
  | cons l0 ls ih =>
    intro l hl hc
    rcases List.mem_cons.mp hl with h1 | h1
    · subst h1
      cases ls with
      | nil => exact hc
      | cons l' ls' =>
        simp only [joinNl]
        exact containsSub_append_left_mono pat l _ hc
    · cases ls with
      | nil => simp at h1
      | cons l' ls' =>
        simp only [joinNl]
        exact containsSub_append_right_mono pat l0 _
          (containsSub_cons_of pat '\n' _ (ih l h1 hc))

theorem containsSub_of_mem_splitOnNl (pat t l : List Char)
    (hl : l ∈ splitOnNl t) (h : containsSub pat l = true) :
    containsSub pat t = true := by
  have h1 := containsSub_joinNl_of_mem pat (splitOnNl t) l hl h
  rwa [joinNl_splitOnNl] at h1

theorem foldl_replaceAll_id : ∀ (ps : List (List Char × List Char)) (t : List Char),
    (∀ p ∈ ps, containsSub p.1 t = false) →
    ps.foldl (fun acc p => replaceAll p.1 p.2 acc) t = t := by
  intro ps
  induction ps with
  | nil => intro t _; rfl
  | cons p ps ih =>
    intro t h
    simp only [List.foldl_cons]
    rw [replaceAll_not_contains p.1 p.2 t (h p (List.mem_cons_self p ps))]
    exact ih t (fun q hq => h q (List.mem_cons_of_mem p hq))

/-! ### Stripping is idempotent -/

theorem dropWhile_head_not_space :
    ∀ (l : List Char) (c : Char) (cs : List Char),
      l.dropWhile isPySpace = c :: cs → isPySpace c = false := by
  intro l
  induction l with
  | nil => intro c cs h; cases h
  | cons x xs ih =>
    intro c cs h
    rw [List.dropWhile_cons] at h
    by_cases hx : isPySpace x = true
    · rw [if_pos hx] at h
      exact ih c cs h
    · rw [if_neg hx] at h
      injection h with h1 _
      subst h1
      exact Bool.eq_false_iff.mpr hx

theorem dropWhile_of_head_not (l : List Char)
    (h : ∀ c cs, l = c :: cs → isPySpace c = false) :
    l.dropWhile isPySpace = l := by
  cases l with
  | nil => rfl
  | cons c cs =>
    have hc := h c cs rfl
    rw [List.dropWhile_cons, if_neg (by simp [hc])]

theorem noTrailSp_dropTrailingSpace :
    ∀ l : List Char, noTrailSp (dropTrailingSpace l) = true := by
  intro l
  induction l with
  | nil => rfl
  | cons c cs ih =>
    cases hd : dropTrailingSpace cs with
    | nil =>
      rw [show dropTrailingSpace (c :: cs) = if isPySpace c then [] else [c] from
        by simp [dropTrailingSpace, hd]]
      by_cases hc : isPySpace c = true
      · simp [noTrailSp, hc]
      · have hc' : isPySpace c = false := Bool.eq_false_iff.mpr hc
        simp [noTrailSp, hc']
    | cons x xs =>
      rw [show dropTrailingSpace (c :: cs) = c :: x :: xs from
        by simp [dropTrailingSpace, hd]]
      rw [hd] at ih
      simpa [noTrailSp] using ih

theorem dropTrailingSpace_of_noTrail :
    ∀ l : List Char, noTrailSp l = true → dropTrailingSpace l = l := by
  intro l
  induction l with
  | nil => intro _; rfl
  | cons c cs ih =>
    intro h
    cases cs with
    | nil =>
      have hc : isPySpace c = false := by simpa [noTrailSp] using h
      simp [dropTrailingSpace, hc]
    | cons d ds =>
      have h' : noTrailSp (d :: ds) = true := by simpa [noTrailSp] using h
      have ihd := ih h'
      rw [show dropTrailingSpace (c :: d :: ds) =
            (match dropTrailingSpace (d :: ds) with
              | [] => if isPySpace c then [] else [c]
              | l :: ls => c :: l :: ls) from rfl, ihd]

theorem stripL_idem (l : List Char) : stripL (stripL l) = stripL l := by
  have h1 : (stripL l).dropWhile isPySpace = stripL l := by
    apply dropWhile_of_head_not
    intro c cs hcons
    unfold stripL at hcons
    obtain ⟨t, ht⟩ := dropTrailingSpace_append_eq (l.dropWhile isPySpace)
    rw [hcons] at ht
    exact dropWhile_head_not_space l c (cs ++ t) (by simpa using ht)
  show dropTrailingSpace ((stripL l).dropWhile isPySpace) = stripL l
  rw [h1]
  exact dropTrailingSpace_of_noTrail _ (noTrailSp_dropTrailingSpace _)

/-! ### Structure of `format_math_text` output -/

theorem mem_procLine (x : Char) (l : List Char) (hx : x ∈ procLine l) :
    x = '\x60' ∨ x ∈ stripL l := by
  simp only [procLine] at hx
  by_cases h : wrapCond (stripL l) = true
  · rw [if_pos h] at hx
    rcases List.mem_append.mp hx with h1 | h1
    · rcases List.mem_append.mp h1 with h2 | h2
      · left
        simpa [fence] using h2
      · exact Or.inr h2
    · left
      simpa [fence] using h1
  · rw [if_neg h] at hx
    exact Or.inr hx

theorem noNl_procLine (l : List Char) (h : ('\n' : Char) ∉ l) :
    ('\n' : Char) ∉ procLine l := by
  intro hmem
  rcases mem_procLine '\n' l hmem with h1 | h1
  · exact absurd h1 (by decide)
  · exact h (mem_stripL '\n' l h1)

/-- Splitting the output of `format_math_text` on newlines recovers
exactly the processed lines of the preprocessed text. -/
theorem splitOnNl_format (text : List Char) :
    splitOnNl (format_math_text text) = (splitOnNl (preprocess text)).map procLine := by
  unfold format_math_text
  apply splitOnNl_joinNl
  · intro hmap
    exact splitOnNl_ne_nil (preprocess text) (List.map_eq_nil_iff.mp hmap)
  · intro m hm
    rcases List.mem_map.mp hm with ⟨l, hl, rfl⟩
    exact noNl_procLine l (noNl_of_mem_splitOnNl (preprocess text) l hl)

theorem escFree_containsSub (t : List Char) (h : escFree t = true) :
    ∀ p ∈ tableKeys, containsSub p t = false := by
  intro p hp
  have := List.all_eq_true.mp h p hp
  simpa using this

/-- If none of the substitution triggers occurs in `t`, the three
character-level passes of `format_math_text` leave `t` unchanged. -/
theorem preprocess_id_of_escFree (t : List Char) (h : escFree t = true) :
    preprocess t = t := by
  have hk := escFree_containsSub t h
  have hsub : substPass t = t := by
    apply foldl_replaceAll_id
    intro p hp
    exact hk p.1 (List.mem_append.mpr (Or.inl (List.mem_map.mpr ⟨p, hp, rfl⟩)))
  unfold preprocess
  rw [hsub]
  rw [replaceAll_not_contains _ _ _ (hk "\\".data (by simp [tableKeys]))]
  rw [replaceAll_not_contains _ _ _ (hk "M1".data (by simp [tableKeys]))]
  rw [replaceAll_not_contains _ _ _ (hk "M2".data (by simp [tableKeys]))]

/-! ### No backslash and no `M1`/`M2` survive the normalizer -/

theorem rep_data_pair_M1 : "M1".data = ['M', '1'] := rfl

theorem rep_data_pair_M2 : "M2".data = ['M', '2'] := rfl

theorem rep_data_pair_M1s : "M₁".data = ['M', '₁'] := rfl

theorem rep_data_pair_M2s : "M₂".data = ['M', '₂'] := rfl

theorem rep_data_bs : "\\".data = ['\\'] := rfl

theorem mem_of_mem_splitOnNl (x : Char) (t l : List Char)
    (hl : l ∈ splitOnNl t) (hx : x ∈ l) : x ∈ t := by
  have h := mem_joinNl_of_mem (splitOnNl t) l x hl hx
  rwa [joinNl_splitOnNl] at h

theorem contains2_procLine (a b : Char) (l : List Char)
    (hfa : (('\x60' : Char) == a) = false) (hfb : (('\x60' : Char) == b) = false)
    (h : contains2 a b (stripL l) = false) :
    contains2 a b (procLine l) = false := by
  simp only [procLine]
  by_cases hw : wrapCond (stripL l) = true
  · rw [if_pos hw]
    have hfence : contains2 a b fence = false := by
      simp [fence, contains2, headIs, hfa]
    have h1 : contains2 a b (fence ++ stripL l) = false := by
      refine contains2_append_false a b (stripL l) fence hfence h ?_
      left
      simp [fence, lastIs, hfa]
    refine contains2_append_false a b fence (fence ++ stripL l) h1 hfence ?_
    right
    simp [fence, headIs, hfb]
  · rw [if_neg hw]
    exact h

/-- The line phase of `format_math_text` (strip, fence, rejoin) cannot
create an occurrence of a two-character pattern made of non-newline,
non-backtick characters. -/
theorem contains2_formatLines (a b : Char)
    (hna : (('\n' : Char) == a) = false) (hnb : (('\n' : Char) == b) = false)
    (hfa : (('\x60' : Char) == a) = false) (hfb : (('\x60' : Char) == b) = false)
    (t : List Char) (h : contains2 a b t = false) :
    contains2 a b (joinNl ((splitOnNl t).map procLine)) = false := by
  apply contains2_joinNl a b hna hnb
  intro m hm
  rcases List.mem_map.mp hm with ⟨l, hl, rfl⟩
  exact contains2_procLine a b l hfa hfb
    (contains2_stripL a b l (contains2_of_mem_splitOnNl a b t h l hl))

theorem contains2_M1_preprocess (t : List Char) :
    contains2 'M' '1' (preprocess t) = false := by
  unfold preprocess
  rw [rep_data_pair_M1, rep_data_pair_M1s, rep_data_pair_M2, rep_data_pair_M2s]
  unfold replaceAll
  apply contains2_M_replaceAllAux '1' '2' '₂' (by decide) (by decide) (by decide)
    _ _ (le_refl _)
  exact contains2_replaceAll_self '1' '₁' (by decide) (by decide) (by decide)
    _ _ (le_refl _)

theorem contains2_M2_preprocess (t : List Char) :
    contains2 'M' '2' (preprocess t) = false := by
  unfold preprocess
  rw [rep_data_pair_M1, rep_data_pair_M1s, rep_data_pair_M2, rep_data_pair_M2s]
  unfold replaceAll
  exact contains2_replaceAll_self '2' '₂' (by decide) (by decide) (by decide)
    _ _ (le_refl _)

theorem bs_notin_replaceBS :
    ∀ fuel s, s.length ≤ fuel → ('\\' : Char) ∉ replaceAllAux ['\\'] [] fuel s := by
  intro fuel
  induction fuel with
  | zero =>
    intro s hs
    have h0 : s = [] := List.length_eq_zero.mp (Nat.le_zero.mp hs)
    subst h0
    simp [replaceAllAux]
  | succ fuel ih =>
    intro s hs
    cases s with
    | nil => simp [replaceAllAux]
    | cons c cs =>
      simp only [replaceAllAux]
      by_cases h : (['\\'] : List Char) ≠ [] ∧ startsWith (c :: cs) ['\\'] = true
      · rw [if_pos h]
        simp only [List.nil_append]
        have hdrop : List.drop (['\\'].length - 1) cs = cs := by simp
        rw [hdrop]
        exact ih cs (by simp only [List.length_cons] at hs; omega)
      · rw [if_neg h]
        intro hmem
        rcases List.mem_cons.mp hmem with h1 | h1
        · apply h
          refine ⟨by simp, ?_⟩
          rw [startsWith_single]
          simp [headIs, ← h1]
        · exact ih cs (by simp only [List.length_cons] at hs; omega) h1

theorem bs_notin_preprocess (t : List Char) :
    ('\\' : Char) ∉ preprocess t := by
  unfold preprocess
  intro hmem
  rcases mem_replaceAll _ _ _ _ hmem with h1 | h1
  · exact absurd h1 (by decide)
  · rcases mem_replaceAll _ _ _ _ h1 with h2 | h2
    · exact absurd h2 (by decide)
    · rw [rep_data_bs] at h2
      unfold replaceAll at h2
      exact bs_notin_replaceBS _ _ (le_refl _) h2

/-- C10: for every input string, the output of `format_math_text` contains
no backslash character at all — the substitution table runs first, the
backslash-deletion pass removes every remaining backslash, and neither the
`M1`/`M2` rewrites nor the line phase (strip, fence, rejoin) reintroduces
one. -/
theorem format_no_backslash (text : List Char) :
    ('\\' : Char) ∉ format_math_text text := by
  intro hmem
  unfold format_math_text at hmem
  rcases mem_of_mem_joinNl _ _ hmem with h1 | ⟨m, hm, hxm⟩
  · exact absurd h1 (by decide)
  · rcases List.mem_map.mp hm with ⟨l, hl, rfl⟩
    rcases mem_procLine _ _ hxm with h2 | h2
    · exact absurd h2 (by decide)
    · exact bs_notin_preprocess text
        (mem_of_mem_splitOnNl '\\' (preprocess text) l hl (mem_stripL _ _ h2))

/-! ### The claims about the text normalizer -/

/-- C1: for every input string, splitting the normalizer's output on
newlines yields exactly one line per line of the preprocessed text; a line
whose trimmed content contains an equality sign and does not begin with a
bullet/numbering marker (`•`, `-`, or `1.`–`9.`) appears wrapped in the
fixed-width fence, and every other line appears as its content unchanged
apart from trimming. -/
theorem c1_line_fencing (text : List Char) :
    splitOnNl (format_math_text text) =
      (splitOnNl (preprocess text)).map (fun l =>
        if wrapCond (stripL l) then fence ++ stripL l ++ fence else stripL l) := by
  rw [splitOnNl_format]
  rfl

/-- C3: on the concrete input `\vec{M1} = \vec{M2} + 2` the normalizer
turns the vector markers into `→`, subscripts `M1`/`M2` into `M₁`/`M₂`,
keeps the brace characters literally, and fences the line because it
contains an equality sign. -/
theorem c3_vec_scenario :
    format_math_text "\\vec\x7bM1\x7d = \\vec\x7bM2\x7d + 2".data =
      "\x60\x60\x60→\x7bM₁\x7d = →\x7bM₂\x7d + 2\x60\x60\x60".data := by
  decide

/-- C2 counterexample: the input `x = 1` is free of all original escape
sequences, yet the normalizer is not idempotent on it — the second
application fences the already-fenced line again. -/
theorem c2_counterexample :
    escFree "x = 1".data = true ∧
    format_math_text (format_math_text "x = 1".data) ≠
      format_math_text "x = 1".data := by
  exact ⟨by decide, by decide⟩

/-- C2 (amended): for every input free of the original escape sequences in
which no line triggers the equality fencing (after trimming, no line both
contains `=` and lacks a bullet/numbering prefix), the normalizer is
idempotent: `format_math_text (format_math_text text) = format_math_text
text`.  On fence-triggering lines idempotence fails because the fencing is
re-applied, as the counterexample shows. -/
theorem c2_amended_idempotent (text : List Char)
    (hesc : escFree text = true)
    (hlines : ∀ l ∈ splitOnNl text, wrapCond (stripL l) = false) :
    format_math_text (format_math_text text) = format_math_text text := by
  have hpre : preprocess text = text := preprocess_id_of_escFree text hesc
  have hfmt : format_math_text text = joinNl ((splitOnNl text).map stripL) := by
    unfold format_math_text
    rw [hpre]
    refine congrArg joinNl (List.map_congr_left ?_)
    intro l hl
    simp only [procLine]
    rw [if_neg (by simp [hlines l hl])]
  have hnlLines : ∀ m ∈ (splitOnNl text).map stripL, ('\n' : Char) ∉ m := by
    intro m hm
    rcases List.mem_map.mp hm with ⟨l, hl, rfl⟩
    intro hmem
    exact noNl_of_mem_splitOnNl text l hl (mem_stripL _ _ hmem)
  have hnonempty : (splitOnNl text).map stripL ≠ [] := by
    intro hmap
    exact splitOnNl_ne_nil text (List.map_eq_nil_iff.mp hmap)
  have hsplit : splitOnNl (format_math_text text) = (splitOnNl text).map stripL := by
    rw [hfmt]
    exact splitOnNl_joinNl _ hnonempty hnlLines
  have hkeys : ∀ p ∈ tableKeys, p ≠ [] ∧ ('\n' : Char) ∉ p := by decide
  have hescout : escFree (format_math_text text) = true := by
    apply List.all_eq_true.mpr
    intro p hp
    simp only [Bool.not_eq_true']
    cases hval : containsSub p (format_math_text text) with
    | false => rfl
    | true =>
      exfalso
      rw [hfmt] at hval
      rcases containsSub_joinNl_cases p (hkeys p hp).1 (hkeys p hp).2 _ hval
        with ⟨m, hm, hcm⟩
      rcases List.mem_map.mp hm with ⟨l, hl, rfl⟩
      have h1 : containsSub p l = true := containsSub_stripL_mono p l hcm
      have h2 : containsSub p text = true :=
        containsSub_of_mem_splitOnNl p text l hl h1
      have h3 := escFree_containsSub text hesc p hp
      rw [h2] at h3
      cases h3
  have hpre2 : preprocess (format_math_text text) = format_math_text text :=
    preprocess_id_of_escFree _ hescout
  show joinNl ((splitOnNl (preprocess (format_math_text text))).map procLine) =
    format_math_text text
  rw [hpre2, hsplit, List.map_map]
  rw [hfmt]
  refine congrArg joinNl (List.map_congr_left ?_)
  intro l hl
  simp only [Function.comp, procLine]
  rw [stripL_idem]
  rw [if_neg (by simp [hlines l hl])]

/-- Witness for the amended C2 at a concrete two-line escape-free input. -/
theorem c2_amended_witness :
    escFree "ab\ncd".data = true ∧
    (∀ l ∈ splitOnNl "ab\ncd".data, wrapCond (stripL l) = false) ∧
    format_math_text (format_math_text "ab\ncd".data) =
      format_math_text "ab\ncd".data :=
  ⟨by decide, by decide, c2_amended_idempotent _ (by decide) (by decide)⟩

/-- C9: the normalizer rewrites every occurrence of `M1` and `M2` anywhere
in the text — no occurrence survives in the output — including occurrences
in ordinary prose, as the concrete example shows. -/
theorem c9_m1_m2_rewritten_everywhere (text : List Char) :
    containsSub "M1".data (format_math_text text) = false ∧
    containsSub "M2".data (format_math_text text) = false ∧
    format_math_text "Model M1 and M2 cars".data = "Model M₁ and M₂ cars".data := by
  refine ⟨?_, ?_, by decide⟩
  · rw [rep_data_pair_M1, containsSub_pair]
    unfold format_math_text
    exact contains2_formatLines 'M' '1' (by decide) (by decide) (by decide)
      (by decide) _ (contains2_M1_preprocess text)
  · rw [rep_data_pair_M2, containsSub_pair]
    unfold format_math_text
    exact contains2_formatLines 'M' '2' (by decide) (by decide) (by decide)
      (by decide) _ (contains2_M2_preprocess text)

/-! ### The claims about the interaction controller -/

/-- C4: a question arriving for a user with no pending image yields exactly
the guidance reply, makes no vision-reasoning call and no translation call,
and leaves the state map unchanged. -/
theorem c4_question_without_image (st : StateMap) (uid : Nat) (q : List Char)
    (analyze : ImageData → List Char → Except Unit (List Char))
    (translate : List Char → Except Unit (List Char))
    (h : st uid = none) :
    handle_question st uid q analyze translate =
      (st, [BotEvent.reply askImageFirstMsg]) ∧
    analyzeCalls (handle_question st uid q analyze translate).2 = [] ∧
    translateCalls (handle_question st uid q analyze translate).2 = [] := by
  simp [handle_question, h, analyzeCalls, translateCalls]

/-- Witness for C4 on the empty state map. -/
theorem c4_witness :
    ((fun _ => none : StateMap) 0 = none) ∧
    (handle_question (fun _ => none) 0 "hi".data
        (fun _ _ => Except.ok []) (fun _ => Except.ok []) =
      ((fun _ => none : StateMap), [BotEvent.reply askImageFirstMsg]) ∧
     analyzeCalls (handle_question (fun _ => none) 0 "hi".data
        (fun _ _ => Except.ok []) (fun _ => Except.ok [])).2 = [] ∧
     translateCalls (handle_question (fun _ => none) 0 "hi".data
        (fun _ _ => Except.ok []) (fun _ => Except.ok [])).2 = []) :=
  ⟨rfl, c4_question_without_image _ 0 _ _ _ rfl⟩

/-- C5: storing an image unconditionally overwrites the user's previous
pending image, so after two images and a question the single
vision-reasoning call carries the second image's bytes (and the question). -/
theorem c5_second_image_wins (st : StateMap) (uid : Nat)
    (img1 img2 : ImageData) (q : List Char)
    (analyze : ImageData → List Char → Except Unit (List Char))
    (translate : List Char → Except Unit (List Char)) :
    (handle_image (handle_image st uid img1).1 uid img2).1 uid = some img2 ∧
    analyzeCalls (handle_question
        (handle_image (handle_image st uid img1).1 uid img2).1
        uid q analyze translate).2 = [(img2, q)] := by
  have hst : (handle_image (handle_image st uid img1).1 uid img2).1 uid = some img2 := by
    simp [handle_image, putImage]
  refine ⟨hst, ?_⟩
  simp only [handle_question, hst]
  cases h : analyze img2 q with
  | error e => simp only [h]; rfl
  | ok english =>
    cases h2 : translate english with
    | error e2 => simp only [h, h2]; rfl
    | ok georgian => simp only [h, h2]; rfl

/-- C6: when the vision-reasoning call fails, the user's entry is cleared,
no translation call is made, and the user receives the error notice. -/
theorem c6_analyze_failure (st : StateMap) (uid : Nat) (img : ImageData)
    (q : List Char)
    (analyze : ImageData → List Char → Except Unit (List Char))
    (translate : List Char → Except Unit (List Char)) (e : Unit)
    (himg : st uid = some img) (hfail : analyze img q = Except.error e) :
    (handle_question st uid q analyze translate).1 uid = none ∧
    translateCalls (handle_question st uid q analyze translate).2 = [] ∧
    BotEvent.reply genericErrorMsg ∈ (handle_question st uid q analyze translate).2 := by
  simp [handle_question, himg, hfail, translateCalls, clearUser]

/-- Witness for C6 with a concretely failing reasoning oracle. -/
theorem c6_witness :
    (putImage (fun _ => none) 5 [1] 5 = some [1]) ∧
    ((fun (_ : ImageData) (_ : List Char) =>
        (Except.error () : Except Unit (List Char))) [1] "q".data =
      Except.error ()) ∧
    ((handle_question (putImage (fun _ => none) 5 [1]) 5 "q".data
        (fun _ _ => Except.error ()) (fun _ => Except.ok [])).1 5 = none ∧
     translateCalls (handle_question (putImage (fun _ => none) 5 [1]) 5 "q".data
        (fun _ _ => Except.error ()) (fun _ => Except.ok [])).2 = [] ∧
     BotEvent.reply genericErrorMsg ∈
       (handle_question (putImage (fun _ => none) 5 [1]) 5 "q".data
        (fun _ _ => Except.error ()) (fun _ => Except.ok [])).2) :=
  ⟨by decide, rfl, c6_analyze_failure _ 5 [1] "q".data _ _ () (by decide) rfl⟩

/-- C7 counterexample: when only the translation call fails, the emitted
error notice is the same generic text as after a reasoning failure, and
that text does not mention translation at all — so no notice refers to the
translation step specifically. -/
theorem c7_counterexample :
    (handle_question (putImage (fun _ => none) 1 [0]) 1 "q".data
        (fun _ _ => Except.ok "ok".data) (fun _ => Except.error ())).2.getLast? =
      (handle_question (putImage (fun _ => none) 1 [0]) 1 "q".data
        (fun _ _ => Except.error ()) (fun _ => Except.error ())).2.getLast? ∧
    (handle_question (putImage (fun _ => none) 1 [0]) 1 "q".data
        (fun _ _ => Except.ok "ok".data) (fun _ => Except.error ())).2.getLast? =
      some (BotEvent.reply genericErrorMsg) ∧
    containsSub "translat".data genericErrorMsg = false :=
  ⟨by decide, by decide, by decide⟩

/-- C7 (amended): when only the translation call fails, the English result
has already been sent before the translation call appears in the trace, the
user's entry is cleared, and the user receives the generic error notice —
the same text as for a reasoning failure, not one specific to the
translation step. -/
theorem c7_amended_translation_failure (st : StateMap) (uid : Nat)
    (img : ImageData) (q english : List Char)
    (analyze : ImageData → List Char → Except Unit (List Char))
    (translate : List Char → Except Unit (List Char)) (e : Unit)
    (himg : st uid = some img) (hok : analyze img q = Except.ok english)
    (hfail : translate english = Except.error e) :
    (handle_question st uid q analyze translate).2 =
      [BotEvent.reply processingMsg,
       BotEvent.callAnalyze img q,
       BotEvent.reply (englishHeader ++ format_math_text english),
       BotEvent.editStatus translatingStatusMsg,
       BotEvent.callTranslate english,
       BotEvent.reply genericErrorMsg] ∧
    (handle_question st uid q analyze translate).1 uid = none := by
  simp [handle_question, himg, hok, hfail, clearUser]

/-- Witness for the amended C7 with a concretely failing translation oracle. -/
theorem c7_amended_witness :
    (putImage (fun _ => none) 2 [3] 2 = some [3]) ∧
    ((fun (_ : ImageData) (_ : List Char) =>
        (Except.ok "hi".data : Except Unit (List Char))) [3] "q".data =
      Except.ok "hi".data) ∧
    ((fun (_ : List Char) => (Except.error () : Except Unit (List Char)))
        "hi".data = Except.error ()) ∧
    ((handle_question (putImage (fun _ => none) 2 [3]) 2 "q".data
        (fun _ _ => Except.ok "hi".data) (fun _ => Except.error ())).2 =
      [BotEvent.reply processingMsg,
       BotEvent.callAnalyze [3] "q".data,
       BotEvent.reply (englishHeader ++ format_math_text "hi".data),
       BotEvent.editStatus translatingStatusMsg,
       BotEvent.callTranslate "hi".data,
       BotEvent.reply genericErrorMsg] ∧
     (handle_question (putImage (fun _ => none) 2 [3]) 2 "q".data
        (fun _ _ => Except.ok "hi".data) (fun _ => Except.error ())).1 2 = none) :=
  ⟨by decide, rfl, rfl,
    c7_amended_translation_failure _ 2 [3] "q".data "hi".data _ _ ()
      (by decide) rfl rfl⟩

/-- C8: the cancel command with no stored entry replies "nothing to cancel"
and changes nothing; with a pending image it removes exactly that user's
entry and replies with the confirmation. -/
theorem c8_cancel (st : StateMap) (uid : Nat) :
    (st uid = none → cancel st uid = (st, [BotEvent.reply noActiveMsg])) ∧
    (∀ img, st uid = some img →
      (cancel st uid).1 uid = none ∧
      (∀ v, v ≠ uid → (cancel st uid).1 v = st v) ∧
      (cancel st uid).2 = [BotEvent.reply cancelledMsg]) := by
  constructor
  · intro h
    unfold cancel
    rw [h]
  · intro img h
    unfold cancel
    rw [h]
    refine ⟨by simp [clearUser], ?_, rfl⟩
    intro v hv
    simp [clearUser, hv]

/-- Witness for C8: both branches at concrete states. -/
theorem c8_witness :
    ((fun _ => none : StateMap) 0 = none ∧
      cancel (fun _ => none) 0 = ((fun _ => none : StateMap), [BotEvent.reply noActiveMsg])) ∧
    (putImage (fun _ => none) 0 [1] 0 = some [1] ∧
      ((cancel (putImage (fun _ => none) 0 [1]) 0).1 0 = none ∧
       (∀ v, v ≠ 0 → (cancel (putImage (fun _ => none) 0 [1]) 0).1 v =
         putImage (fun _ => none) 0 [1] v) ∧
       (cancel (putImage (fun _ => none) 0 [1]) 0).2 = [BotEvent.reply cancelledMsg])) :=
  ⟨⟨rfl, (c8_cancel _ 0).1 rfl⟩,
   ⟨by decide, (c8_cancel _ 0).2 [1] (by decide)⟩⟩

end Repetitori
